import Mathlib

/-!
# Verification of the Graham scan convex-hull routine (`src/grahamscan.h`)

This file gives a shallow embedding of the `GrahamScan` function template of
`grahamscan.h` and proves the specified properties about it.

Modelling decisions:

* A `Vector<2>` encoding a 2D point is modelled as a pair of rationals
  (`ℚ × ℚ`): the spec only requires "two numeric coordinates" with exact
  comparison semantics for the cross-product sign tests and tie-breaks.
* Iterator ranges become `List Point`.  `std::min_element` is modelled by
  `minElementSplit`, returning the leftmost minimal element together with the
  input split around it (this is exactly the data the algorithm reads from the
  returned iterator: `[begin, minY)`, `*minY`, `[next, end)`).
* `std::sort` with a comparator is modelled by a comparison sort
  (`sortBy`, an insertion sort).  `std::sort` leaves the order of
  comparator-equivalent elements unspecified; on the point sets this algorithm
  sorts (all points weakly above the anchor), comparator-equivalent points are
  equal, so every conforming sort produces the same list.
* The hull-sweep stack `result` is modelled with its top as the list head
  (`sweepPop`, `sweepFold`); the vector's element order is the reverse.
  The C++ loop indexes `result[result.size() - 1]` and
  `result[result.size() - 2]` and calls `pop_back` without any size check;
  the embedding returns `none` exactly where such an access would be out of
  bounds, so "the out-of-bounds branch is unreachable" is the statement that
  the embedding never returns `none`.
-/

namespace GrahamScanVerify

/-- A 2D point (`Vector<2>` of `matrix.h`): an x and a y coordinate. -/
abbrev Point : Type := ℚ × ℚ

/-- The scalar 2D cross product `a.x*b.y - a.y*b.x` (the `CrossProduct`
collaborator from `matrix.h`, as described by the spec's glossary). -/
def CrossProduct (a b : Point) : ℚ := a.1 * b.2 - a.2 * b.1

/-- Squared Euclidean norm `a.x² + a.y²` (the `NormSquared` collaborator from
`matrix.h`). -/
def NormSquared (a : Point) : ℚ := a.1 * a.1 + a.2 * a.2

/-- Modelled from the spec: the body of `CompareYCoordinates` lives in
`grahamscan.cpp`, which is not part of the sources; its header documentation
and the spec state that it returns whether `lhs` has a strictly smaller
y-coordinate than `rhs`, with ties on y broken by comparing x-coordinates. -/
def CompareYCoordinates (lhs rhs : Point) : Bool :=
  decide (lhs.2 < rhs.2 ∨ (lhs.2 = rhs.2 ∧ lhs.1 < rhs.1))

/-- Modelled from the spec: the body of `CompareByAngle::operator()` lives in
`grahamscan.cpp`, which is not part of the sources; the spec states that the
comparison is decided by the sign of the 2D cross product of the two vectors
from the functor's origin (positive: `lhs` makes a strictly smaller angle),
falling back to squared distance from the origin (closer first) exactly when
the cross product is zero. -/
def CompareByAngle (origin lhs rhs : Point) : Bool :=
  if CrossProduct (lhs - origin) (rhs - origin) = 0 then
    decide (NormSquared (lhs - origin) < NormSquared (rhs - origin))
  else
    decide (0 < CrossProduct (lhs - origin) (rhs - origin))

/-- `std::min_element(begin, end, comp)`: locates the leftmost element that is
minimal with respect to `comp` and returns the corresponding split of the
input: the prefix `[begin, minY)`, the minimal element `*minY`, and the suffix
`[std::next(minY), end)`.  Returns `none` only for the empty range (where
`min_element` would return `end`). -/
def minElementSplit (comp : Point → Point → Bool) :
    List Point → Option (List Point × Point × List Point)
  | [] => none
  | x :: xs =>
    match minElementSplit comp xs with
    | none => some ([], x, [])
    | some (pre, m, post) =>
      if comp m x then some (x :: pre, m, post) else some ([], x, xs)

/-- One step of the comparison sort modelling `std::sort`: insert `x` into an
already sorted list, immediately before the first element `y` with `lt x y`. -/
def insertByAngle (lt : Point → Point → Bool) (x : Point) : List Point → List Point
  | [] => [x]
  | y :: ys => if lt x y then x :: y :: ys else y :: insertByAngle lt x ys

/-- The comparison sort modelling `std::sort(points.begin(), points.end(), lt)`
(an insertion sort; see the header comment on sort-result uniqueness). -/
def sortBy (lt : Point → Point → Bool) : List Point → List Point
  | [] => []
  | x :: xs => insertByAngle lt x (sortBy lt xs)

/-- The inner `while (true)` loop of the hull sweep, for candidate point `p`.
The stack is held with its top first.  While the cross product of the last
hull edge `last = result[size-1] - result[size-2]` with
`curr = p - result[size-1]` is strictly negative, the top is popped
(`result.pop_back()`); a nonnegative cross product breaks out of the loop.
A stack of fewer than two elements means `result[result.size() - 2]` (or the
subsequent `pop_back`) would be out of bounds: this is modelled as `none`. -/
def sweepPop (p : Point) : List Point → Option (List Point)
  | x :: y :: s =>
    if CrossProduct (x - y) (p - x) < 0 then sweepPop p (y :: s)
    else some (x :: y :: s)
  | _ => none

/-- The outer `for` loop of the hull sweep: each remaining point runs the pop
loop and is then pushed (`result.push_back(points[i])`). -/
def sweepFold : List Point → List Point → Option (List Point)
  | [], s => some s
  | p :: rest, s =>
    match sweepPop p s with
    | none => none
    | some s' => sweepFold rest (p :: s')

/-- The anchor selection of `GrahamScan`:
`std::min_element(begin, end, CompareYCoordinates)` together with the split of
the input around the returned iterator. -/
def anchorSplit (l : List Point) : Option (List Point × Point × List Point) :=
  minElementSplit CompareYCoordinates l

/-- `GrahamScan(begin, end, out)`, instrumented for memory safety: the value
`none` marks an execution that would access `points[0]`,
`result[result.size() - 1]`, `result[result.size() - 2]` or call
`result.pop_back()` out of bounds.  Otherwise `some` of the sequence written
to `out` is returned.

Stages, mirroring the source: input of size < 3 is copied verbatim; otherwise
the anchor (minimal y, ties by x) is removed from a local copy of the points,
the copy is sorted by angle around the anchor, the anchor is appended once
more at the end, the stack starts as `[*minY, points[0]]`, every further point
runs the pop loop and is pushed, and the final `pop_back` removes the
duplicated anchor. -/
def GrahamScanOpt (input : List Point) : Option (List Point) :=
  if input.length < 3 then some input
  else
    match anchorSplit input with
    | none => none
    | some (pre, anchor, post) =>
      let sorted := sortBy (CompareByAngle anchor) (pre ++ post)
      match sorted ++ [anchor] with
      | [] => none
      | p0 :: rest =>
        match sweepFold rest [p0, anchor] with
        | none => none
        | some s =>
          match s with
          | [] => none
          | _ :: _ => some s.reverse.dropLast

/-- The sequence `GrahamScan` writes to `out` (total wrapper around
`GrahamScanOpt`; the `none` case never occurs, see `grahamScanOpt_isSome`). -/
def GrahamScan (input : List Point) : List Point :=
  (GrahamScanOpt input).getD input

/-- The anchor point `*minY` selected for an input (arbitrary default for
inputs where `min_element` returns `end`, i.e. the empty range). -/
def theAnchor (l : List Point) : Point :=
  match anchorSplit l with
  | none => (0, 0)
  | some (_, anchor, _) => anchor

/-- The sorted working sequence built by the angular sorter: the local copy
`points` of the input with the anchor occurrence removed, sorted by
`CompareByAngle` around the anchor (before the anchor is appended again). -/
def sortedWorking (l : List Point) : List Point :=
  match anchorSplit l with
  | none => []
  | some (pre, anchor, post) => sortBy (CompareByAngle anchor) (pre ++ post)

/-! ## Specification-side predicates -/

/-- `a` is a point of `l` that is minimal under the order "y ascending, then
x ascending": every point of `l` either has a strictly larger y-coordinate, or
ties on y and has a no-smaller x-coordinate. -/
def IsYXMin (a : Point) (l : List Point) : Prop :=
  a ∈ l ∧ ∀ q ∈ l, a.2 < q.2 ∨ (a.2 = q.2 ∧ a.1 ≤ q.1)

/-- Seen from `a`, the point `y` is counter-clockwise of (or aligned with) the
point `x`: the cross product of the two vectors from `a` is nonnegative. -/
def CcwFrom (a x y : Point) : Prop := 0 ≤ CrossProduct (x - a) (y - a)

/-- `p` is weakly above `a` in the anchor order: larger y, or equal y and
no-smaller x.  Every input point is `UpperHalf` of the selected anchor. -/
def UpperHalf (a p : Point) : Prop := a.2 < p.2 ∨ (a.2 = p.2 ∧ a.1 ≤ p.1)

/-- Every three consecutive stack entries, read top-first, make a
counter-clockwise (or collinear) turn in chain order: for a stack
`x :: y :: z :: _` the chain triple is `(z, y, x)` and its edge vectors
`y - z`, `x - y` have nonnegative cross product. -/
def ConvexStack : List Point → Prop
  | x :: y :: z :: s => 0 ≤ CrossProduct (y - z) (x - y) ∧ ConvexStack (y :: z :: s)
  | _ => True

/-- Every three consecutive points of a chain turn counter-clockwise or go
straight: for `x :: y :: z :: _` the edge vectors `y - x` and `z - y` have
nonnegative cross product. -/
def ChainTriples : List Point → Prop
  | x :: y :: z :: s => 0 ≤ CrossProduct (y - x) (z - y) ∧ ChainTriples (y :: z :: s)
  | _ => True

/-- The cross product of the two edge vectors of the consecutive triple
`(o[i-1], o[i], o[i+1])` of the closed polygon `o`, indices wrapping around
the end of the sequence. -/
def turnAt (o : List Point) (i : Nat) : ℚ :=
  CrossProduct (o.getD i 0 - o.getD ((i + o.length - 1) % o.length) 0)
    (o.getD ((i + 1) % o.length) 0 - o.getD i 0)


/-- The strict angular order encoded by `CompareByAngle`, on the vectors
relative to the origin. -/
def AngLt (u v : Point) : Prop :=
  0 < CrossProduct u v ∨ (CrossProduct u v = 0 ∧ NormSquared u < NormSquared v)

/-- A vector lying in the closed upper half plane, with the positive x-axis
but not the negative x-axis included (the shape of every vector from the
anchor to another input point). -/
def UHv (u : Point) : Prop := 0 < u.2 ∨ (u.2 = 0 ∧ 0 ≤ u.1)


/-- The memory touched by one `GrahamScan(begin, end, out)` call: the caller's
range `[begin, end)`, the local vectors `points` and `result`, and the output
sink reached through `out`. -/
structure ScanState where
  inputBuf : List Point
  pointsBuf : List Point
  resultBuf : List Point
  outBuf : List Point

/-- Buffer-level embedding of `GrahamScan(begin, end, out)`: the same stages
as `GrahamScanOpt`, with every operation of the source shown as an update of
the one buffer it writes.  The caller's range `inputBuf` is only ever read
(`std::distance`, `std::min_element`, the two `points.insert` calls and the
dereferences of `minY`); no operation assigns to it, so it leaves the call
unchanged (`grahamScan_input_unmodified`). -/
def GrahamScanImp (input : List Point) : ScanState :=
  let st : ScanState := ⟨input, [], [], []⟩
  if st.inputBuf.length < 3 then
    -- return std::copy(begin, end, out): reads the input range, writes the sink
    { st with outBuf := st.inputBuf }
  else
    match anchorSplit st.inputBuf with
    | none => st
    | some (pre, anchor, post) =>
      -- points.insert(points.end(), begin, minY);
      -- points.insert(points.end(), next, end): reads the input, writes points
      let st := { st with pointsBuf := pre ++ post }
      -- std::sort(points.begin(), points.end(), CompareByAngle(*minY)):
      -- rearranges the local copy only
      let st := { st with pointsBuf := sortBy (CompareByAngle anchor) st.pointsBuf }
      -- points.push_back(*minY)
      let st := { st with pointsBuf := st.pointsBuf ++ [anchor] }
      match st.pointsBuf with
      | [] => st
      | p0 :: rest =>
        -- result.push_back(*minY); result.push_back(points[0]); the sweep
        -- loop: pushes and pops on result only
        match sweepFold rest [p0, anchor] with
        | none => st
        | some s =>
          let st := { st with resultBuf := s.reverse }
          -- result.pop_back()
          let st := { st with resultBuf := st.resultBuf.dropLast }
          -- return std::copy(result.begin(), result.end(), out)
          { st with outBuf := st.resultBuf }


/-! ## Order properties of the comparators -/

lemma compareY_iff {a b : Point} :
    CompareYCoordinates a b = true ↔ (a.2 < b.2 ∨ (a.2 = b.2 ∧ a.1 < b.1)) := by
  simp [CompareYCoordinates]

lemma compareY_false_iff {a b : Point} :
    CompareYCoordinates a b = false ↔ (b.2 ≤ a.2 ∧ (a.2 = b.2 → b.1 ≤ a.1)) := by
  simp only [CompareYCoordinates, decide_eq_false_iff_not]
  constructor
  · intro h
    push_neg at h
    exact h
  · intro h
    push_neg
    exact h

lemma compareY_irrefl (p : Point) : CompareYCoordinates p p = false := by
  rw [compareY_false_iff]; exact ⟨le_rfl, fun _ => le_rfl⟩

lemma compareY_asymm {a b : Point} (h : CompareYCoordinates a b = true) :
    CompareYCoordinates b a = false := by
  rw [compareY_iff] at h
  rw [compareY_false_iff]
  rcases h with h | ⟨hy, hx⟩
  · exact ⟨le_of_lt h, fun hyy => absurd hyy.symm (ne_of_lt h)⟩
  · exact ⟨le_of_eq hy, fun _ => le_of_lt hx⟩

lemma compareY_neg_trans {a b c : Point} (h1 : CompareYCoordinates a b = false)
    (h2 : CompareYCoordinates b c = false) : CompareYCoordinates a c = false := by
  rw [compareY_false_iff] at h1 h2 ⊢
  refine ⟨le_trans h2.1 h1.1, fun hy => ?_⟩
  have hbc : b.2 = c.2 := le_antisymm (hy ▸ h1.1) h2.1
  have hab : a.2 = b.2 := by rw [hy, hbc]
  exact le_trans (h2.2 hbc) (h1.2 hab)

lemma upperHalf_of_compareY_false {m e : Point} (h : CompareYCoordinates e m = false) :
    UpperHalf m e := by
  rw [compareY_false_iff] at h
  rcases lt_or_eq_of_le h.1 with hlt | heq
  · exact Or.inl hlt
  · exact Or.inr ⟨heq, h.2 heq.symm⟩

lemma minElementSplit_eq_none_iff (comp : Point → Point → Bool) (l : List Point) :
    minElementSplit comp l = none ↔ l = [] := by
  cases l with
  | nil => simp [minElementSplit]
  | cons x xs =>
    simp only [minElementSplit]
    cases h : minElementSplit comp xs with
    | none => simp
    | some r =>
      obtain ⟨pre, m, post⟩ := r
      by_cases hc : comp m x = true <;> simp [hc]

lemma minElementSplit_append (comp : Point → Point → Bool) :
    ∀ l pre m post, minElementSplit comp l = some (pre, m, post) → l = pre ++ m :: post := by
  intro l
  induction l with
  | nil => intro pre m post h; simp [minElementSplit] at h
  | cons x xs ih =>
    intro pre m post h
    simp only [minElementSplit] at h
    cases hx : minElementSplit comp xs with
    | none =>
      rw [hx] at h
      obtain ⟨h1, h2, h3⟩ : [] = pre ∧ x = m ∧ [] = post := by simpa using h
      rw [(minElementSplit_eq_none_iff comp xs).mp hx]
      rw [← h1, ← h2, ← h3]
      rfl
    | some r =>
      obtain ⟨pre', m', post'⟩ := r
      rw [hx] at h
      dsimp only at h
      by_cases hc : comp m' x = true
      · rw [if_pos hc] at h
        obtain ⟨h1, h2, h3⟩ : x :: pre' = pre ∧ m' = m ∧ post' = post := by simpa using h
        rw [← h1, ← h2, ← h3]
        simp [ih pre' m' post' hx]
      · rw [if_neg hc] at h
        obtain ⟨h1, h2, h3⟩ : [] = pre ∧ x = m ∧ xs = post := by simpa using h
        rw [← h1, ← h2, ← h3]
        rfl

lemma minElementSplit_min :
    ∀ l pre m post, minElementSplit CompareYCoordinates l = some (pre, m, post) →
      ∀ e ∈ l, CompareYCoordinates e m = false := by
  intro l
  induction l with
  | nil => intro pre m post h; simp [minElementSplit] at h
  | cons x xs ih =>
    intro pre m post h e he
    simp only [minElementSplit] at h
    cases hx : minElementSplit CompareYCoordinates xs with
    | none =>
      rw [hx] at h
      obtain ⟨-, h2, -⟩ : [] = pre ∧ x = m ∧ [] = post := by simpa using h
      have hxs : xs = [] := (minElementSplit_eq_none_iff _ xs).mp hx
      subst hxs
      have : e = x := by simpa using he
      rw [this, ← h2]
      exact compareY_irrefl x
    | some r =>
      obtain ⟨pre', m', post'⟩ := r
      rw [hx] at h
      dsimp only at h
      by_cases hc : CompareYCoordinates m' x = true
      · rw [if_pos hc] at h
        obtain ⟨-, h2, -⟩ : x :: pre' = pre ∧ m' = m ∧ post' = post := by simpa using h
        rw [← h2]
        rcases (by simpa using he : e = x ∨ e ∈ xs) with rfl | hin
        · exact compareY_asymm hc
        · exact ih pre' m' post' hx e hin
      · rw [if_neg hc] at h
        obtain ⟨-, h2, -⟩ : [] = pre ∧ x = m ∧ xs = post := by simpa using h
        rw [← h2]
        rcases (by simpa using he : e = x ∨ e ∈ xs) with rfl | hin
        · exact compareY_irrefl e
        · have h1 := ih pre' m' post' hx e hin
          exact compareY_neg_trans h1 (by simpa using hc)


/-! ## The angular order -/

lemma compareByAngle_true_iff {o l r : Point} :
    CompareByAngle o l r = true ↔ AngLt (l - o) (r - o) := by
  unfold CompareByAngle AngLt
  by_cases h : CrossProduct (l - o) (r - o) = 0
  · simp [h]
  · simp only [h, if_false, decide_eq_true_eq]
    constructor
    · intro h'; exact Or.inl h'
    · rintro (h' | ⟨h0, -⟩)
      · exact h'
      · exact h0.elim

lemma compareByAngle_false_iff {o l r : Point} :
    CompareByAngle o l r = false ↔ ¬ AngLt (l - o) (r - o) := by
  rw [← compareByAngle_true_iff]
  simp

lemma upperHalf_iff {a p : Point} : UpperHalf a p ↔ UHv (p - a) := by
  unfold UpperHalf UHv
  rw [Prod.snd_sub, Prod.fst_sub]
  constructor
  · rintro (h | ⟨h1, h2⟩)
    · exact Or.inl (by linarith)
    · exact Or.inr ⟨by linarith, by linarith⟩
  · rintro (h | ⟨h1, h2⟩)
    · exact Or.inl (by linarith)
    · exact Or.inr ⟨by linarith, by linarith⟩

lemma angLt_irrefl (u : Point) : ¬ AngLt u u := by
  unfold AngLt CrossProduct
  rintro (h | ⟨h0, hd⟩)
  · nlinarith
  · exact lt_irrefl _ hd

lemma crossProduct_comm (a b : Point) : CrossProduct a b = -CrossProduct b a := by
  unfold CrossProduct; ring

lemma angLt_asymm {u v : Point} (h : AngLt u v) : ¬ AngLt v u := by
  unfold AngLt at *
  rw [crossProduct_comm v u]
  rcases h with h | ⟨h0, hd⟩ <;> rintro (h' | ⟨h0', hd'⟩) <;> linarith

lemma normSquared_nonneg (u : Point) : 0 ≤ NormSquared u := by
  unfold NormSquared
  nlinarith [mul_self_nonneg u.1, mul_self_nonneg u.2]

lemma normSquared_pos {u : Point} (h : u.1 ≠ 0 ∨ u.2 ≠ 0) : 0 < NormSquared u := by
  unfold NormSquared
  rcases h with h | h
  · nlinarith [mul_self_nonneg u.2, mul_self_pos.mpr h]
  · nlinarith [mul_self_nonneg u.1, mul_self_pos.mpr h]

lemma angLt_trans {u v w : Point} (hu : UHv u) (hv : UHv v) (hw : UHv w)
    (h1 : AngLt u v) (h2 : AngLt v w) : AngLt u w := by
  obtain ⟨ux, uy⟩ := u
  obtain ⟨vx, vy⟩ := v
  obtain ⟨wx, wy⟩ := w
  simp only [AngLt, UHv, CrossProduct, NormSquared] at *
  have huy : 0 ≤ uy := by rcases hu with h | ⟨h, -⟩ <;> linarith
  have hvy : 0 ≤ vy := by rcases hv with h | ⟨h, -⟩ <;> linarith
  have hwy : 0 ≤ wy := by rcases hw with h | ⟨h, -⟩ <;> linarith
  have id1 : vy * (ux * wy - uy * wx)
      = wy * (ux * vy - uy * vx) + uy * (vx * wy - vy * wx) := by ring
  have id2 : vx * (ux * wy - uy * wx)
      = wx * (ux * vy - uy * vx) + ux * (vx * wy - vy * wx) := by ring
  rcases h1 with hc1 | ⟨hz1, hd1⟩ <;> rcases h2 with hc2 | ⟨hz2, hd2⟩
  · -- cross u v > 0, cross v w > 0
    left
    rcases eq_or_lt_of_le hvy with hvy0 | hvy0
    · exfalso
      have hvx : 0 ≤ vx := by rcases hv with h | ⟨-, h⟩ <;> linarith
      subst hvy0
      nlinarith [mul_nonneg huy hvx]
    · have hwy0 : 0 < wy := by
        rcases eq_or_lt_of_le hwy with h0 | h0
        · exfalso
          have hwx : 0 ≤ wx := by rcases hw with h | ⟨-, h⟩ <;> linarith
          subst h0
          nlinarith [mul_nonneg hvy hwx]
        · exact h0
      nlinarith [id1, mul_pos hwy0 hc1, mul_nonneg huy hc2.le]
  · -- cross u v > 0, tie between v and w
    left
    rcases eq_or_lt_of_le hvy with hvy0 | hvy0
    · exfalso
      have hvx : 0 ≤ vx := by rcases hv with h | ⟨-, h⟩ <;> linarith
      subst hvy0
      nlinarith [mul_nonneg huy hvx]
    · have hwy0 : 0 < wy := by
        rcases eq_or_lt_of_le hwy with h0 | h0
        · exfalso
          subst h0
          have h' : vy * wx = 0 := by linear_combination -hz2
          have hwx0 : wx = 0 := by
            rcases mul_eq_zero.mp h' with h'' | h''
            · exact absurd h''.symm (ne_of_lt hvy0)
            · exact h''
          subst hwx0
          nlinarith [mul_self_nonneg vx, mul_pos hvy0 hvy0]
        · exact h0
      have h3 : uy * (vx * wy - vy * wx) = 0 := by rw [hz2]; ring
      nlinarith [id1, h3, mul_pos hwy0 hc1]
  · -- tie between u and v, cross v w > 0
    rcases eq_or_lt_of_le huy with huy0 | huy0
    · have hux : 0 ≤ ux := by rcases hu with h | ⟨-, h⟩ <;> linarith
      rcases eq_or_lt_of_le hux with hux0 | hux0
      · -- u = 0: tie conclusion
        right
        subst huy0
        subst hux0
        constructor
        · ring
        · have hwne : ¬ (wx = 0 ∧ wy = 0) := by
            rintro ⟨hwx', hwy'⟩
            rw [hwx', hwy'] at hc2
            nlinarith
          have hpos : 0 < wx * wx + wy * wy := by
            rcases not_and_or.mp hwne with h' | h'
            · nlinarith [mul_self_pos.mpr h', mul_self_nonneg wy]
            · nlinarith [mul_self_pos.mpr h', mul_self_nonneg wx]
          nlinarith
      · -- u on the positive x-axis, nonzero
        left
        subst huy0
        have h' : ux * vy = 0 := by linear_combination hz1
        have hvy0 : vy = 0 := by
          rcases mul_eq_zero.mp h' with h'' | h''
          · exact absurd h''.symm (ne_of_lt hux0)
          · exact h''
        subst hvy0
        have hvx : 0 ≤ vx := by rcases hv with h | ⟨-, h⟩ <;> linarith
        have hwy0 : 0 < wy := by
          by_contra hcon
          push_neg at hcon
          nlinarith [mul_nonneg hvx (neg_nonneg.mpr hcon)]
        nlinarith [mul_pos hux0 hwy0]
    · -- uy > 0: then vy > 0
      left
      rcases eq_or_lt_of_le hvy with hvy0 | hvy0
      · exfalso
        subst hvy0
        have h' : uy * vx = 0 := by linear_combination -hz1
        have hvx0 : vx = 0 := by
          rcases mul_eq_zero.mp h' with h'' | h''
          · exact absurd h''.symm (ne_of_lt huy0)
          · exact h''
        subst hvx0
        nlinarith [mul_self_nonneg ux, mul_pos huy0 huy0]
      · have h3 : wy * (ux * vy - uy * vx) = 0 := by rw [hz1]; ring
        nlinarith [id1, h3, mul_pos huy0 hc2]
  · -- both ties
    right
    have hvne : ¬ (vx = 0 ∧ vy = 0) := by
      rintro ⟨hvx', hvy'⟩
      rw [hvx', hvy'] at hd1
      nlinarith [mul_self_nonneg ux, mul_self_nonneg uy]
    constructor
    · rcases eq_or_ne vy 0 with hvy0 | hvy0
      · have hvx : vx ≠ 0 := fun h => hvne ⟨h, hvy0⟩
        have h3 : vx * (ux * wy - uy * wx) = 0 := by
          rw [id2, hz1, hz2]
          ring
        rcases mul_eq_zero.mp h3 with h'' | h''
        · exact absurd h'' hvx
        · exact h''
      · have h3 : vy * (ux * wy - uy * wx) = 0 := by
          rw [id1, hz1, hz2]
          ring
        rcases mul_eq_zero.mp h3 with h'' | h''
        · exact absurd h'' hvy0
        · exact h''
    · linarith


lemma insertByAngle_perm (lt : Point → Point → Bool) (x : Point) (l : List Point) :
    List.Perm (insertByAngle lt x l) (x :: l) := by
  induction l with
  | nil => exact List.Perm.refl _
  | cons y ys ih =>
    by_cases h : lt x y = true
    · rw [insertByAngle, if_pos h]
    · rw [insertByAngle, if_neg h]
      exact List.Perm.trans (ih.cons y) (List.Perm.swap x y ys)

lemma sortBy_perm (lt : Point → Point → Bool) (l : List Point) :
    List.Perm (sortBy lt l) l := by
  induction l with
  | nil => exact List.Perm.refl _
  | cons x xs ih =>
    exact List.Perm.trans (insertByAngle_perm lt x (sortBy lt xs)) (ih.cons x)

lemma mem_insertByAngle {lt : Point → Point → Bool} {x z : Point} {l : List Point}
    (h : z ∈ insertByAngle lt x l) : z = x ∨ z ∈ l := by
  have := (insertByAngle_perm lt x l).mem_iff.mp h
  simpa using this

lemma insertByAngle_pairwise {lt : Point → Point → Bool} {P : Point → Prop}
    (hasym : ∀ a b, lt a b = true → lt b a = false)
    (htrans : ∀ a b c, P a → P b → P c → lt a b = true → lt b c = true → lt a c = true)
    {x : Point} {l : List Point} (hPx : P x) (hPl : ∀ y ∈ l, P y)
    (hl : List.Pairwise (fun a b => lt b a = false) l) :
    List.Pairwise (fun a b => lt b a = false) (insertByAngle lt x l) := by
  induction l with
  | nil => simp [insertByAngle]
  | cons y ys ih =>
    rcases List.pairwise_cons.mp hl with ⟨hy, hys⟩
    by_cases h : lt x y = true
    · rw [insertByAngle, if_pos h]
      refine List.pairwise_cons.mpr ⟨?_, hl⟩
      intro z hz
      rcases List.mem_cons.mp hz with rfl | hzys
      · exact hasym _ _ h
      · rcases Bool.eq_false_or_eq_true (lt z x) with hzx | hzx
        swap
        · exact hzx
        · exfalso
          have hzy := htrans z x y (hPl z (List.mem_cons_of_mem _ hzys)) hPx
            (hPl y (List.mem_cons_self _ _)) hzx h
          rw [hy z hzys] at hzy
          exact Bool.false_ne_true hzy
    · rw [insertByAngle, if_neg h]
      refine List.pairwise_cons.mpr ⟨?_, ?_⟩
      · intro z hz
        rcases mem_insertByAngle hz with rfl | hzys
        · simpa using h
        · exact hy z hzys
      · exact ih (fun z hz => hPl z (List.mem_cons_of_mem _ hz)) hys

lemma sortBy_pairwise {lt : Point → Point → Bool} {P : Point → Prop}
    (hasym : ∀ a b, lt a b = true → lt b a = false)
    (htrans : ∀ a b c, P a → P b → P c → lt a b = true → lt b c = true → lt a c = true)
    {l : List Point} (hPl : ∀ y ∈ l, P y) :
    List.Pairwise (fun a b => lt b a = false) (sortBy lt l) := by
  induction l with
  | nil => simp [sortBy]
  | cons x xs ih =>
    rw [sortBy]
    refine insertByAngle_pairwise hasym htrans (hPl x (List.mem_cons_self _ _)) ?_
      (ih (fun y hy => hPl y (List.mem_cons_of_mem _ hy)))
    intro y hy
    exact hPl y (List.mem_cons_of_mem _ ((sortBy_perm lt xs).mem_iff.mp hy))


/-! ## The hull sweep -/

lemma convexStack_tail {x : Point} {s : List Point} (h : ConvexStack (x :: s)) :
    ConvexStack s := by
  match s with
  | [] => trivial
  | [y] => trivial
  | y :: z :: s' => exact h.2

lemma crossProduct_shift (a u w : Point) :
    CrossProduct (u - a) (w - u) = CrossProduct (u - a) (w - a) := by
  simp only [CrossProduct, Prod.fst_sub, Prod.snd_sub]
  ring

lemma popped_mem_convexHull {a t p v : Point}
    (h1 : 0 ≤ CrossProduct (t - a) (v - a))
    (h3 : 0 ≤ CrossProduct (v - a) (p - a))
    (h2 : CrossProduct (v - t) (p - v) < 0) :
    v ∈ convexHull ℚ ({a, t, p} : Set Point) := by
  set c1 := CrossProduct (t - a) (v - a) with hc1def
  set c3 := CrossProduct (v - a) (p - a) with hc3def
  set A := CrossProduct (t - a) (p - a) with hAdef
  have hc2 : 0 < A - c3 - c1 := by
    have hid : CrossProduct (v - t) (p - v) = -(A - c3 - c1) := by
      rw [hAdef, hc3def, hc1def]
      simp only [CrossProduct, Prod.fst_sub, Prod.snd_sub]
      ring
    rw [hid] at h2
    linarith
  have hApos : 0 < A := by linarith
  set c2 := A - c3 - c1 with hc2def
  have hbar : A • v = c2 • a + c3 • t + c1 • p := by
    rw [hc2def, hAdef, hc3def, hc1def]
    apply Prod.ext
    · simp only [CrossProduct, Prod.fst_sub, Prod.snd_sub, Prod.fst_add, Prod.smul_fst,
        smul_eq_mul]
      ring
    · simp only [CrossProduct, Prod.fst_sub, Prod.snd_sub, Prod.snd_add, Prod.smul_snd,
        smul_eq_mul]
      ring
  have hsum : c2 + c3 + c1 = A := by rw [hc2def]; ring
  have hcm : (Finset.univ : Finset (Fin 3)).centerMass ![c2, c3, c1] ![a, t, p] = v := by
    rw [Finset.centerMass]
    have hsum3 : (∑ i : Fin 3, (![c2, c3, c1]) i) = A := by
      rw [Fin.sum_univ_three]
      simpa using hsum
    have hS : (∑ i : Fin 3, (![c2, c3, c1]) i • (![a, t, p]) i) = A • v := by
      rw [Fin.sum_univ_three]
      simp only [Matrix.cons_val_zero, Matrix.cons_val_one, Matrix.head_cons,
        Matrix.cons_val_two, Matrix.tail_cons]
      rw [hbar]
    rw [hsum3, hS, smul_smul, inv_mul_cancel₀ (ne_of_gt hApos), one_smul]
  rw [← hcm]
  refine Finset.centerMass_mem_convexHull _ ?_ ?_ ?_
  · intro i _
    fin_cases i
    · simpa using le_of_lt hc2
    · simpa using h3
    · simpa using h1
  · rw [Fin.sum_univ_three]
    simpa using hsum ▸ hApos
  · intro i _
    fin_cases i
    · simp
    · simp
    · simp

lemma sweepPop_spec (a p0 p : Point) :
    ∀ (s t : List Point), s.reverse = a :: p0 :: t →
      List.Pairwise (CcwFrom a) (s.reverse ++ [p]) →
      ConvexStack s →
      ∃ s' t', sweepPop p s = some s' ∧
        s'.reverse = a :: p0 :: t' ∧
        s'.reverse.Sublist s.reverse ∧
        ConvexStack (p :: s') ∧
        ∀ x ∈ s, x ∈ convexHull ℚ {y | y ∈ p :: s'} := by
  intro s
  induction s with
  | nil => intro t hrev; simp at hrev
  | cons x s₁ ih =>
    intro t hrev hpw hcs
    cases s₁ with
    | nil => simp at hrev
    | cons y s₂ =>
      by_cases hpop : CrossProduct (x - y) (p - x) < 0
      · -- a pop occurs
        have hsrev : (x :: y :: s₂).reverse = (y :: s₂).reverse ++ [x] := by
          simp
        cases s₂ with
        | nil =>
          -- the stack is [p0, anchor]; the pop condition contradicts sortedness
          exfalso
          obtain ⟨hy, hx, -⟩ : y = a ∧ x = p0 ∧ ([] : List Point) = t := by simpa using hrev
          subst hy
          have hx_p : CcwFrom y x p := by
            have hpw' := hpw
            rw [show (x :: y :: ([] : List Point)).reverse = [y, x] by simp] at hpw'
            rcases List.pairwise_cons.mp hpw' with ⟨-, h2'⟩
            rcases List.pairwise_cons.mp h2' with ⟨h3', -⟩
            exact h3' p (by simp)
          unfold CcwFrom at hx_p
          rw [← crossProduct_shift y x p] at hx_p
          exact absurd hpop (not_lt.mpr hx_p)
        | cons z s₃ =>
          -- recurse on the popped stack
          have hrev' : (y :: z :: s₃).reverse ++ [x] = a :: p0 :: t := by
            rw [← hsrev]; exact hrev
          obtain ⟨t0, ts, hts⟩ : ∃ t0 ts, t = t0 :: ts := by
            cases t with
            | nil =>
              exfalso
              have := congrArg List.length hrev'
              simp at this
            | cons t0 ts => exact ⟨t0, ts, rfl⟩
          have hdrop : (y :: z :: s₃).reverse = a :: p0 :: t.dropLast := by
            have h1' := congrArg List.dropLast hrev'
            rw [List.dropLast_concat] at h1'
            rw [h1', hts, List.dropLast_cons₂, List.dropLast_cons₂]
          have hpw₁ : List.Pairwise (CcwFrom a) ((y :: z :: s₃).reverse ++ [p]) := by
            refine List.Pairwise.sublist ?_ hpw
            rw [hsrev]
            exact List.Sublist.append (List.sublist_append_left _ _) (List.Sublist.refl _)
          have hcs₁ : ConvexStack (y :: z :: s₃) := convexStack_tail hcs
          obtain ⟨s', t', hpop', hrev'', hsub', hconv', hcont'⟩ :=
            ih t.dropLast hdrop hpw₁ hcs₁
          refine ⟨s', t', ?_, hrev'', ?_, hconv', ?_⟩
          · rw [show sweepPop p (x :: y :: z :: s₃)
                = if CrossProduct (x - y) (p - x) < 0 then sweepPop p (y :: z :: s₃)
                  else some (x :: y :: z :: s₃) from rfl, if_pos hpop]
            exact hpop'
          · refine hsub'.trans ?_
            rw [hsrev]
            exact List.sublist_append_left _ _
          · intro x' hx'
            rcases List.mem_cons.mp hx' with rfl | hx₁
            · -- the popped point itself: inside the triangle (a, y, p)
              have h1 : CcwFrom a y x' := by
                have hps : List.Pairwise (CcwFrom a) (x' :: y :: z :: s₃).reverse :=
                  (List.pairwise_append.mp hpw).1
                rw [hsrev] at hps
                rcases List.pairwise_append.mp hps with ⟨-, -, h3'⟩
                exact h3' y (by simp) x' (by simp)
              have h3 : CcwFrom a x' p := by
                rcases List.pairwise_append.mp hpw with ⟨-, -, h3'⟩
                exact h3' x' (by rw [hsrev]; simp) p (by simp)
              have hx_tri := popped_mem_convexHull (a := a) (t := y) (v := x') (p := p)
                h1 h3 hpop
              refine (convexHull_min ?_ (convex_convexHull ℚ _)) hx_tri
              intro w hw
              simp only [Set.mem_insert_iff, Set.mem_singleton_iff] at hw
              rcases hw with rfl | rfl | rfl
              · -- the anchor is in the recursive stack
                have ha : w ∈ (y :: z :: s₃) := by
                  rw [← List.mem_reverse, hdrop]
                  simp
                exact hcont' w ha
              · exact hcont' w (by simp)
              · exact subset_convexHull ℚ _ (by simp)
            · exact hcont' x' hx₁
      · -- no pop: the loop breaks at once
        have hge : 0 ≤ CrossProduct (x - y) (p - x) := not_lt.mp hpop
        refine ⟨x :: y :: s₂, t, ?_, hrev, List.Sublist.refl _, ⟨hge, hcs⟩, ?_⟩
        · rw [show sweepPop p (x :: y :: s₂)
              = if CrossProduct (x - y) (p - x) < 0 then sweepPop p (y :: s₂)
                else some (x :: y :: s₂) from rfl, if_neg hpop]
        · intro x' hx'
          exact subset_convexHull ℚ _ (List.mem_cons_of_mem p hx')

lemma sweepFold_spec (a p0 : Point) :
    ∀ (rem s t : List Point), s.reverse = a :: p0 :: t →
      List.Pairwise (CcwFrom a) (s.reverse ++ rem) →
      ConvexStack s →
      ∃ F tF, sweepFold rem s = some F ∧
        F.reverse = a :: p0 :: tF ∧
        F.reverse.Sublist (s.reverse ++ rem) ∧
        ConvexStack F ∧
        (∀ x ∈ s, x ∈ convexHull ℚ {y | y ∈ F}) ∧
        (∀ x ∈ rem, x ∈ convexHull ℚ {y | y ∈ F}) ∧
        (rem = [] → F = s) ∧
        (rem ≠ [] → F.head? = rem.getLast?) ∧
        (rem ≠ [] → 3 ≤ F.length) := by
  intro rem
  induction rem with
  | nil =>
    intro s t hrev hpw hcs
    refine ⟨s, t, rfl, hrev, by simp, hcs, ?_, by simp, fun _ => rfl,
      fun h => absurd rfl h, fun h => absurd rfl h⟩
    intro x hx
    exact subset_convexHull ℚ _ hx
  | cons q rem' ih =>
    intro s t hrev hpw hcs
    have hpw_q : List.Pairwise (CcwFrom a) (s.reverse ++ [q]) := by
      refine List.Pairwise.sublist ?_ hpw
      exact List.Sublist.append (List.Sublist.refl _) (by simp)
    obtain ⟨s', t', hpops, hrev', hsub', hconv', hcont'⟩ :=
      sweepPop_spec a p0 q s t hrev hpw_q hcs
    have hrev₂ : (q :: s').reverse = a :: p0 :: (t' ++ [q]) := by
      rw [List.reverse_cons, hrev']
      simp
    have hpw₂ : List.Pairwise (CcwFrom a) ((q :: s').reverse ++ rem') := by
      refine List.Pairwise.sublist ?_ hpw
      rw [List.reverse_cons]
      have h1 : (s'.reverse ++ [q]) ++ rem' = s'.reverse ++ (q :: rem') := by simp
      rw [h1]
      exact List.Sublist.append hsub' (List.Sublist.refl _)
    obtain ⟨F, tF, hfold, hFrev, hFsub, hFconv, hFcont_s, hFcont_rem, hFnil, hFhead, hFlen⟩ :=
      ih (q :: s') (t' ++ [q]) hrev₂ hpw₂ hconv'
    refine ⟨F, tF, ?_, hFrev, ?_, hFconv, ?_, ?_, ?_, ?_, ?_⟩
    · rw [show sweepFold (q :: rem') s
          = (match sweepPop q s with
             | none => none
             | some s'' => sweepFold rem' (q :: s'')) from rfl, hpops]
      exact hfold
    · refine hFsub.trans ?_
      rw [List.reverse_cons]
      have h1 : (s'.reverse ++ [q]) ++ rem' = s'.reverse ++ (q :: rem') := by simp
      rw [h1]
      exact List.Sublist.append hsub' (List.Sublist.refl _)
    · intro x hx
      have hx' := hcont' x hx
      have hsubset : {y | y ∈ q :: s'} ⊆ convexHull ℚ {y | y ∈ F} :=
        fun w hw => hFcont_s w hw
      exact (convexHull_min hsubset (convex_convexHull ℚ _)) hx'
    · intro x hx
      rcases List.mem_cons.mp hx with rfl | hx'
      · exact hFcont_s x (by simp)
      · exact hFcont_rem x hx'
    · intro h
      exact absurd h (by simp)
    · intro _
      cases rem' with
      | nil =>
        have hF : F = q :: s' := hFnil rfl
        rw [hF]
        simp
      | cons r rs =>
        rw [hFhead (by simp), List.getLast?_cons_cons]
    · intro _
      cases rem' with
      | nil =>
        have hF : F = q :: s' := hFnil rfl
        have hs'len : s'.length = t'.length + 2 := by
          have := congrArg List.length hrev'
          simpa using this
        rw [hF]
        simp only [List.length_cons]
        omega
      | cons r rs => exact hFlen (by simp)


/-! ## Assembling a full run of the algorithm -/

lemma ccwFrom_of_compareByAngle_false {o x y : Point}
    (h : CompareByAngle o y x = false) : CcwFrom o x y := by
  rw [compareByAngle_false_iff] at h
  unfold CcwFrom
  rcases le_or_lt 0 (CrossProduct (x - o) (y - o)) with h' | h'
  · exact h'
  · exfalso
    apply h
    left
    rw [crossProduct_comm]
    linarith

lemma ccwFrom_self_left (a y : Point) : CcwFrom a a y := by
  unfold CcwFrom CrossProduct
  simp only [Prod.fst_sub, Prod.snd_sub]
  have h : (a.1 - a.1) * (y.2 - a.2) - (a.2 - a.2) * (y.1 - a.1) = 0 := by ring
  rw [h]

lemma ccwFrom_self_right (a x : Point) : CcwFrom a x a := by
  unfold CcwFrom CrossProduct
  simp only [Prod.fst_sub, Prod.snd_sub]
  have h : (x.1 - a.1) * (a.2 - a.2) - (x.2 - a.2) * (a.1 - a.1) = 0 := by ring
  rw [h]

lemma compareByAngle_asymmB (o : Point) :
    ∀ a b, CompareByAngle o a b = true → CompareByAngle o b a = false :=
  fun _ _ h => compareByAngle_false_iff.mpr (angLt_asymm (compareByAngle_true_iff.mp h))

lemma compareByAngle_transB {o : Point} :
    ∀ a b c, UpperHalf o a → UpperHalf o b → UpperHalf o c →
      CompareByAngle o a b = true → CompareByAngle o b c = true →
      CompareByAngle o a c = true :=
  fun _ _ _ ha hb hc h1 h2 => compareByAngle_true_iff.mpr
    (angLt_trans (upperHalf_iff.mp ha) (upperHalf_iff.mp hb) (upperHalf_iff.mp hc)
      (compareByAngle_true_iff.mp h1) (compareByAngle_true_iff.mp h2))

/-- A complete run of `GrahamScan` on an input of size at least three: the
algorithm returns `some` output of the shape `anchor :: p0 :: tO`; the anchor
is the y-then-x minimum of the input; together with the once-more-appended
anchor, the output is the reverse of the final stack `F`, which is a convex
chain, pairwise angularly ordered around the anchor; the output is a
sub-multiset of the input; and every input point lies in the convex hull of
the output points. -/
lemma grahamScanOpt_run {input : List Point} (h3 : 3 ≤ input.length) :
    ∃ (a p0 : Point) (tO F pre post srest : List Point),
      GrahamScanOpt input = some (a :: p0 :: tO) ∧
      IsYXMin a input ∧
      F.reverse = (a :: p0 :: tO) ++ [a] ∧
      ConvexStack F ∧
      List.Pairwise (CcwFrom a) ((a :: p0 :: tO) ++ [a]) ∧
      ((a :: p0 :: tO : List Point) : Multiset Point) ≤ (input : Multiset Point) ∧
      (∀ p ∈ input, p ∈ convexHull ℚ {y | y ∈ a :: p0 :: tO}) ∧
      anchorSplit input = some (pre, a, post) ∧
      sortBy (CompareByAngle a) (pre ++ post) = p0 :: srest ∧
      sweepFold (srest ++ [a]) [p0, a] = some F ∧
      3 ≤ F.length := by
  have hne : input ≠ [] := by
    intro h
    rw [h] at h3
    simp at h3
  obtain ⟨r, hsplit⟩ : ∃ r, anchorSplit input = some r := by
    cases hh : anchorSplit input with
    | none => exact absurd ((minElementSplit_eq_none_iff _ _).mp hh) hne
    | some r => exact ⟨r, rfl⟩
  obtain ⟨pre, a, post⟩ := r
  have happ : input = pre ++ a :: post := minElementSplit_append _ _ _ _ _ hsplit
  have hmin : ∀ e ∈ input, CompareYCoordinates e a = false :=
    minElementSplit_min _ _ _ _ hsplit
  have hyx : IsYXMin a input := by
    constructor
    · rw [happ]
      exact List.mem_append_right _ (List.mem_cons_self _ _)
    · intro q hq
      exact upperHalf_of_compareY_false (hmin q hq)
  have hup : ∀ y ∈ pre ++ post, UpperHalf a y := by
    intro y hy
    apply upperHalf_of_compareY_false
    apply hmin
    rw [happ]
    rcases List.mem_append.mp hy with h | h
    · exact List.mem_append_left _ h
    · exact List.mem_append_right _ (List.mem_cons_of_mem _ h)
  have hperm : List.Perm (sortBy (CompareByAngle a) (pre ++ post)) (pre ++ post) :=
    sortBy_perm _ _
  have hpw0 : List.Pairwise (fun x y => CompareByAngle a y x = false)
      (sortBy (CompareByAngle a) (pre ++ post)) :=
    sortBy_pairwise (compareByAngle_asymmB a) (compareByAngle_transB (o := a)) hup
  have hccw : List.Pairwise (CcwFrom a) (sortBy (CompareByAngle a) (pre ++ post)) :=
    hpw0.imp (fun h => ccwFrom_of_compareByAngle_false h)
  have hlen_input : input.length = (pre ++ post).length + 1 := by
    rw [happ]
    simp [List.length_append]
    omega
  have hlsorted : 2 ≤ (sortBy (CompareByAngle a) (pre ++ post)).length := by
    rw [hperm.length_eq]
    omega
  obtain ⟨p0, srest, hs0⟩ :
      ∃ p0 srest, sortBy (CompareByAngle a) (pre ++ post) = p0 :: srest := by
    cases hss : sortBy (CompareByAngle a) (pre ++ post) with
    | nil => rw [hss] at hlsorted; simp at hlsorted
    | cons p0 srest => exact ⟨p0, srest, rfl⟩
  have hpwall : List.Pairwise (CcwFrom a)
      (a :: (sortBy (CompareByAngle a) (pre ++ post) ++ [a])) := by
    refine List.pairwise_cons.mpr ⟨fun y _ => ccwFrom_self_left a y, ?_⟩
    refine List.pairwise_append.mpr ⟨hccw, List.pairwise_singleton _ _, ?_⟩
    intro x _ b hb
    have hb' : b = a := List.mem_singleton.mp hb
    rw [hb']
    exact ccwFrom_self_right a x
  have hpw_run : List.Pairwise (CcwFrom a)
      (([p0, a] : List Point).reverse ++ (srest ++ [a])) := by
    have heq : ([p0, a] : List Point).reverse ++ (srest ++ [a])
        = a :: (sortBy (CompareByAngle a) (pre ++ post) ++ [a]) := by
      rw [hs0]
      simp
    rw [heq]
    exact hpwall
  obtain ⟨F, tF, hfold, hFrev, hFsub, hFconv, hFcont_s, hFcont_rem, hFnil, hFhead, hFlen3⟩ :=
    sweepFold_spec a p0 (srest ++ [a]) [p0, a] [] (by simp) hpw_run trivial
  have hremne : srest ++ [a] ≠ [] := by simp
  have hhead : F.head? = some a := by
    rw [hFhead hremne, List.getLast?_concat]
  have hlen : 3 ≤ F.length := hFlen3 hremne
  have htFne : tF ≠ [] := by
    intro h
    have hl := congrArg List.length hFrev
    rw [h] at hl
    simp at hl
    omega
  have htFlast : tF.getLast? = some a := by
    have hlast : F.reverse.getLast? = some a := by
      rw [List.getLast?_reverse]
      exact hhead
    rw [hFrev] at hlast
    obtain ⟨w, ws, htF⟩ : ∃ w ws, tF = w :: ws := by
      cases tF with
      | nil => exact absurd rfl htFne
      | cons w ws => exact ⟨w, ws, rfl⟩
    rw [htF] at hlast ⊢
    rw [List.getLast?_cons_cons, List.getLast?_cons_cons] at hlast
    exact hlast
  have htF_eq : tF = tF.dropLast ++ [a] := by
    have h1 := List.getLast?_eq_getLast tF htFne
    rw [htFlast] at h1
    have h2 : tF.getLast htFne = a := by
      injection h1.symm
    conv_lhs => rw [← List.dropLast_append_getLast htFne]
    rw [h2]
  have hO_chain : F.reverse = (a :: p0 :: tF.dropLast) ++ [a] := by
    rw [hFrev]
    conv_lhs => rw [htF_eq]
    simp
  have hOdrop : F.reverse.dropLast = a :: p0 :: tF.dropLast := by
    rw [hO_chain, List.dropLast_concat]
  have hopt : GrahamScanOpt input = some (a :: p0 :: tF.dropLast) := by
    rw [← hOdrop]
    unfold GrahamScanOpt
    rw [if_neg (by omega), hsplit]
    simp only [hs0, List.cons_append, hfold]
    cases hF : F with
    | nil =>
      rw [hF] at hlen
      simp at hlen
    | cons f fs => simp
  have hFsub' : F.reverse.Sublist (a :: (sortBy (CompareByAngle a) (pre ++ post) ++ [a])) := by
    have heq : ([p0, a] : List Point).reverse ++ (srest ++ [a])
        = a :: (sortBy (CompareByAngle a) (pre ++ post) ++ [a]) := by
      rw [hs0]
      simp
    rw [← heq]
    exact hFsub
  have hpwF : List.Pairwise (CcwFrom a) ((a :: p0 :: tF.dropLast) ++ [a]) := by
    rw [← hO_chain]
    exact List.Pairwise.sublist hFsub' hpwall
  have hpermI : List.Perm input (a :: sortBy (CompareByAngle a) (pre ++ post)) := by
    rw [happ]
    exact List.perm_middle.trans (hperm.cons a).symm
  have hms : ((a :: p0 :: tF.dropLast : List Point) : Multiset Point)
      ≤ (input : Multiset Point) := by
    have h1 : (((a :: p0 :: tF.dropLast) ++ [a] : List Point) : Multiset Point)
        ≤ ((a :: sortBy (CompareByAngle a) (pre ++ post)) ++ [a] : List Point) := by
      apply Multiset.coe_le.mpr
      apply List.Sublist.subperm
      rw [← hO_chain]
      have heq2 : (a :: sortBy (CompareByAngle a) (pre ++ post)) ++ [a]
          = a :: (sortBy (CompareByAngle a) (pre ++ post) ++ [a]) := by simp
      rw [heq2]
      exact hFsub'
    rw [← Multiset.coe_add, ← Multiset.coe_add] at h1
    have h2 : ((a :: p0 :: tF.dropLast : List Point) : Multiset Point)
        ≤ ((a :: sortBy (CompareByAngle a) (pre ++ post) : List Point) : Multiset Point) :=
      le_of_add_le_add_right h1
    have h3 : ((a :: sortBy (CompareByAngle a) (pre ++ post) : List Point) : Multiset Point)
        = (input : Multiset Point) :=
      Multiset.coe_eq_coe.mpr hpermI.symm
    rw [h3] at h2
    exact h2
  have hsetF : {y | y ∈ F} = {y | y ∈ a :: p0 :: tF.dropLast} := by
    ext w
    simp only [Set.mem_setOf_eq]
    rw [← List.mem_reverse, hO_chain]
    constructor
    · intro hw
      rcases List.mem_append.mp hw with h | h
      · exact h
      · have : w = a := List.mem_singleton.mp h
        rw [this]
        exact List.mem_cons_self _ _
    · intro hw
      exact List.mem_append_left _ hw
  have hcontain : ∀ p ∈ input, p ∈ convexHull ℚ {y | y ∈ a :: p0 :: tF.dropLast} := by
    intro p hp
    rw [← hsetF]
    have hp' : p ∈ a :: sortBy (CompareByAngle a) (pre ++ post) := hpermI.mem_iff.mp hp
    rcases List.mem_cons.mp hp' with rfl | hps
    · exact hFcont_s p (by simp)
    · rw [hs0] at hps
      rcases List.mem_cons.mp hps with rfl | hps'
      · exact hFcont_s p (by simp)
      · exact hFcont_rem p (List.mem_append_left _ hps')
  exact ⟨a, p0, tF.dropLast, F, pre, post, srest, hopt, hyx, hO_chain, hFconv, hpwF, hms,
    hcontain, hsplit, hs0, hfold, hlen⟩



/-! ## Totality and small consequences -/

lemma grahamScanOpt_isSome (input : List Point) : (GrahamScanOpt input).isSome = true := by
  by_cases h : input.length < 3
  · unfold GrahamScanOpt
    rw [if_pos h]
    rfl
  · obtain ⟨a, p0, tO, F, pre, post, srest, hopt, -⟩ :=
      @grahamScanOpt_run input (by omega)
    rw [hopt]
    rfl

lemma grahamScanOpt_eq_some (input : List Point) :
    GrahamScanOpt input = some (GrahamScan input) := by
  unfold GrahamScan
  cases h : GrahamScanOpt input with
  | none =>
    have := grahamScanOpt_isSome input
    rw [h] at this
    simp at this
  | some o => rfl

/-! ## Indexed extraction of the convexity invariant -/

lemma convexStack_triples :
    ∀ {s : List Point}, ConvexStack s → ∀ i, i + 2 < s.length →
      0 ≤ CrossProduct (s.getD (i+1) 0 - s.getD (i+2) 0) (s.getD i 0 - s.getD (i+1) 0) := by
  intro s
  induction s with
  | nil =>
    intro _ i hi
    simp at hi
  | cons x s₁ ih =>
    intro h i hi
    cases s₁ with
    | nil => simp at hi
    | cons y s₂ =>
      cases s₂ with
      | nil =>
        simp at hi
      | cons z s₃ =>
        cases i with
        | zero => simpa using h.1
        | succ j =>
          have hj : j + 2 < (y :: z :: s₃).length := by
            simp at hi ⊢
            omega
          simpa using ih h.2 j hj

lemma getD_reverse {l : List Point} {j : Nat} (h : j < l.length) :
    l.reverse.getD j 0 = l.getD (l.length - 1 - j) 0 := by
  rw [List.getD_eq_getElem?_getD, List.getD_eq_getElem?_getD]
  rw [List.getElem?_reverse h]

lemma convexStack_reverse_triples {F : List Point} (hc : ConvexStack F) :
    ∀ j, j + 2 < F.length →
      0 ≤ CrossProduct (F.reverse.getD (j+1) 0 - F.reverse.getD j 0)
        (F.reverse.getD (j+2) 0 - F.reverse.getD (j+1) 0) := by
  intro j hj
  have h1 : F.reverse.getD j 0 = F.getD (F.length - 1 - j) 0 := getD_reverse (by omega)
  have h2 : F.reverse.getD (j+1) 0 = F.getD (F.length - 1 - (j+1)) 0 :=
    getD_reverse (by omega)
  have h3 : F.reverse.getD (j+2) 0 = F.getD (F.length - 1 - (j+2)) 0 :=
    getD_reverse (by omega)
  rw [h1, h2, h3]
  have e1 : F.length - 1 - (j+1) = (F.length - 1 - (j+2)) + 1 := by omega
  have e2 : F.length - 1 - j = (F.length - 1 - (j+2)) + 2 := by omega
  rw [e1, e2]
  exact convexStack_triples hc (F.length - 1 - (j+2)) (by omega)

lemma crossProduct_wrap (a g q : Point) :
    CrossProduct (a - g) (q - a) = CrossProduct (q - a) (g - a) := by
  simp only [CrossProduct, Prod.fst_sub, Prod.snd_sub]
  ring

lemma crossProduct_opp (u v : Point) : CrossProduct (u - v) (v - u) = 0 := by
  simp only [CrossProduct, Prod.fst_sub, Prod.snd_sub]
  ring



/-! ## Final consequences used by the specified properties -/

lemma grahamScan_eq_of_opt {input o : List Point} (h : GrahamScanOpt input = some o) :
    GrahamScan input = o := by
  unfold GrahamScan
  rw [h]
  rfl

lemma pairwise_getD {R : Point → Point → Prop} {l : List Point} (h : List.Pairwise R l)
    {i j : Nat} (hij : i < j) (hj : j < l.length) : R (l.getD i 0) (l.getD j 0) := by
  have h' := List.pairwise_iff_get.mp h ⟨i, by omega⟩ ⟨j, hj⟩ (by simpa using hij)
  rw [List.get_eq_getElem, List.get_eq_getElem] at h'
  rw [List.getD_eq_getElem _ _ (by omega : i < l.length), List.getD_eq_getElem _ _ hj]
  exact h'

lemma crossProduct_self (u : Point) : CrossProduct u u = 0 := by
  unfold CrossProduct
  ring

/-! ## The specified properties -/

/-- **C1.** For every input sequence of size at least 3, every input point
lies inside or on the boundary of the polygon described by the output
sequence of `GrahamScan`: it is a member of the convex hull of the output
points. -/
theorem grahamScan_output_contains_input (input : List Point) (h3 : 3 ≤ input.length) :
    ∀ p ∈ input, p ∈ convexHull ℚ {y | y ∈ GrahamScan input} := by
  obtain ⟨a, p0, tO, F, pre, post, srest, hopt, -, -, -, -, -, hcont, -⟩ :=
    grahamScanOpt_run h3
  rw [grahamScan_eq_of_opt hopt]
  exact hcont

/-- Witness for C1: a concrete run on a triangle. -/
theorem grahamScan_output_contains_input_witness :
    3 ≤ ([((0:ℚ),(0:ℚ)), (2,0), (1,2)] : List Point).length ∧
    ∀ p ∈ ([((0:ℚ),(0:ℚ)), (2,0), (1,2)] : List Point),
      p ∈ convexHull ℚ {y | y ∈ GrahamScan [((0:ℚ),(0:ℚ)), (2,0), (1,2)]} :=
  ⟨by norm_num, grahamScan_output_contains_input _ (by norm_num)⟩

/-- **C2.** For every input sequence of size at least 3, every consecutive
triple `(p[i-1], p[i], p[i+1])` of the output sequence, taken with wraparound
across the end of the sequence (including the triples wrapping through the
anchor at position 0), has a nonnegative cross product of its two edge
vectors: no triple makes a strictly clockwise turn. -/
theorem grahamScan_no_clockwise_turn (input : List Point) (h3 : 3 ≤ input.length) :
    ∀ i < (GrahamScan input).length, 0 ≤ turnAt (GrahamScan input) i := by
  obtain ⟨a, p0, tO, F, pre, post, srest, hopt, -, hchain, hconv, hpw, -, -, -, -, -, -⟩ :=
    grahamScanOpt_run h3
  rw [grahamScan_eq_of_opt hopt]
  intro i hi
  have hmdef : (a :: p0 :: tO).length = tO.length + 2 := by simp
  have hFlen' : F.length = tO.length + 3 := by
    have hl := congrArg List.length hchain
    rw [List.length_reverse] at hl
    rw [hl]
    simp
  have hWO : ∀ k, k < tO.length + 2 →
      ((a :: p0 :: tO) ++ [a]).getD k 0 = (a :: p0 :: tO).getD k 0 := by
    intro k hk
    exact List.getD_append _ _ _ _ (by simp only [List.length_cons]; omega)
  have hWm : ((a :: p0 :: tO) ++ [a]).getD (tO.length + 2) 0 = a := by
    rw [List.getD_append_right _ _ _ _ (by simp)]
    simp
  have htri : ∀ j, j + 2 < tO.length + 3 →
      0 ≤ CrossProduct
        (((a :: p0 :: tO) ++ [a]).getD (j+1) 0 - ((a :: p0 :: tO) ++ [a]).getD j 0)
        (((a :: p0 :: tO) ++ [a]).getD (j+2) 0 - ((a :: p0 :: tO) ++ [a]).getD (j+1) 0) := by
    intro j hj
    have h' := convexStack_reverse_triples hconv j (by omega)
    rw [hchain] at h'
    exact h'
  rw [hmdef] at hi
  unfold turnAt
  rw [hmdef]
  by_cases hi0 : i = 0
  · subst hi0
    have e1 : (0 + (tO.length + 2) - 1) % (tO.length + 2) = tO.length + 1 := by
      have h' : 0 + (tO.length + 2) - 1 = tO.length + 1 := by omega
      rw [h']
      exact Nat.mod_eq_of_lt (by omega)
    have e2 : (0 + 1) % (tO.length + 2) = 1 := Nat.mod_eq_of_lt (by omega)
    rw [e1, e2]
    have hg0 : (a :: p0 :: tO).getD 0 0 = a := rfl
    have hg1 : (a :: p0 :: tO).getD 1 0 = p0 := rfl
    rw [hg0, hg1]
    by_cases hm2 : tO.length = 0
    · have hg : (a :: p0 :: tO).getD (tO.length + 1) 0 = p0 := by
        rw [hm2]
        rfl
      rw [hg, crossProduct_opp]
    · have hccw : CcwFrom a (((a :: p0 :: tO) ++ [a]).getD 1 0)
          (((a :: p0 :: tO) ++ [a]).getD (tO.length + 1) 0) :=
        pairwise_getD hpw (by omega) (by simp only [List.length_append, List.length_cons]; omega)
      rw [hWO 1 (by omega), hWO (tO.length + 1) (by omega), hg1] at hccw
      unfold CcwFrom at hccw
      rw [crossProduct_wrap]
      exact hccw
  · by_cases hiLast : i = tO.length + 1
    · subst hiLast
      have e1 : (tO.length + 1 + (tO.length + 2) - 1) % (tO.length + 2) = tO.length := by
        have h' : tO.length + 1 + (tO.length + 2) - 1 = tO.length + (tO.length + 2) := by
          omega
        rw [h', Nat.add_mod_right]
        exact Nat.mod_eq_of_lt (by omega)
      have e2 : (tO.length + 1 + 1) % (tO.length + 2) = 0 := by
        have h' : tO.length + 1 + 1 = tO.length + 2 := by omega
        rw [h', Nat.mod_self]
      rw [e1, e2]
      have hg0 : (a :: p0 :: tO).getD 0 0 = a := rfl
      rw [hg0]
      have ht := htri tO.length (by omega)
      rw [hWO tO.length (by omega), hWO (tO.length + 1) (by omega), hWm] at ht
      exact ht
    · have e1 : (i + (tO.length + 2) - 1) % (tO.length + 2) = i - 1 := by
        have h' : i + (tO.length + 2) - 1 = (i - 1) + (tO.length + 2) := by omega
        rw [h', Nat.add_mod_right]
        exact Nat.mod_eq_of_lt (by omega)
      have e2 : (i + 1) % (tO.length + 2) = i + 1 := Nat.mod_eq_of_lt (by omega)
      rw [e1, e2]
      have ht := htri (i - 1) (by omega)
      rw [show i - 1 + 1 = i from by omega, show i - 1 + 2 = i + 1 from by omega] at ht
      rw [hWO (i-1) (by omega), hWO i (by omega), hWO (i+1) (by omega)] at ht
      exact ht

/-- Witness for C2: a concrete run on a triangle. -/
theorem grahamScan_no_clockwise_turn_witness :
    3 ≤ ([((0:ℚ),(0:ℚ)), (2,0), (1,2)] : List Point).length ∧
    ∀ i < (GrahamScan [((0:ℚ),(0:ℚ)), (2,0), (1,2)]).length,
      0 ≤ turnAt (GrahamScan [((0:ℚ),(0:ℚ)), (2,0), (1,2)]) i :=
  ⟨by norm_num, grahamScan_no_clockwise_turn _ (by norm_num)⟩

/-- **C3.** For every input sequence of size at least 3, the output sequence
is a sub-multiset of the input: every output point is an element of the
input, and no point appears in the output more often than in the input. -/
theorem grahamScan_output_submultiset (input : List Point) (h3 : 3 ≤ input.length) :
    ((GrahamScan input : List Point) : Multiset Point) ≤ (input : Multiset Point) := by
  obtain ⟨a, p0, tO, F, pre, post, srest, hopt, -, -, -, -, hms, -, -⟩ :=
    grahamScanOpt_run h3
  rw [grahamScan_eq_of_opt hopt]
  exact hms

/-- Witness for C3. -/
theorem grahamScan_output_submultiset_witness :
    3 ≤ ([((0:ℚ),(0:ℚ)), (2,0), (1,2)] : List Point).length ∧
    ((GrahamScan [((0:ℚ),(0:ℚ)), (2,0), (1,2)] : List Point) : Multiset Point)
      ≤ (([((0:ℚ),(0:ℚ)), (2,0), (1,2)] : List Point) : Multiset Point) :=
  ⟨by norm_num, grahamScan_output_submultiset _ (by norm_num)⟩

/-- **C4.** For every input sequence of size strictly less than 3, the
algorithm takes the early-return branch (`std::copy(begin, end, out)`):
anchor selection, angular sorting and the hull sweep are bypassed and the
output is exactly the input, in its original order. -/
theorem grahamScan_small_input_identity (input : List Point) (h : input.length < 3) :
    GrahamScanOpt input = some input ∧ GrahamScan input = input := by
  have h1 : GrahamScanOpt input = some input := by
    unfold GrahamScanOpt
    rw [if_pos h]
  exact ⟨h1, grahamScan_eq_of_opt h1⟩

/-- Witness for C4: scenario C of the spec, `{(5,5), (1,1)}`. -/
theorem grahamScan_small_input_identity_witness :
    ([((5:ℚ),(5:ℚ)), (1,1)] : List Point).length < 3 ∧
    (GrahamScanOpt [((5:ℚ),(5:ℚ)), (1,1)] = some [((5:ℚ),(5:ℚ)), (1,1)] ∧
      GrahamScan [((5:ℚ),(5:ℚ)), (1,1)] = [((5:ℚ),(5:ℚ)), (1,1)]) :=
  ⟨by norm_num, grahamScan_small_input_identity _ (by norm_num)⟩

/-- **C5.** For every input sequence of size at least 3, the first element of
the output is the minimum of the input under the order "y ascending, then x
ascending": it has the strictly smallest y-coordinate, with ties on y broken
towards the smallest x-coordinate. -/
theorem grahamScan_head_is_yx_min (input : List Point) (h3 : 3 ≤ input.length) :
    ∃ m, (GrahamScan input).head? = some m ∧ IsYXMin m input := by
  obtain ⟨a, p0, tO, F, pre, post, srest, hopt, hyx, -⟩ := grahamScanOpt_run h3
  refine ⟨a, ?_, hyx⟩
  rw [grahamScan_eq_of_opt hopt]
  rfl

/-- Witness for C5. -/
theorem grahamScan_head_is_yx_min_witness :
    3 ≤ ([((0:ℚ),(0:ℚ)), (2,0), (1,2)] : List Point).length ∧
    ∃ m, (GrahamScan [((0:ℚ),(0:ℚ)), (2,0), (1,2)]).head? = some m ∧
      IsYXMin m [((0:ℚ),(0:ℚ)), (2,0), (1,2)] :=
  ⟨by norm_num, grahamScan_head_is_yx_min _ (by norm_num)⟩

/-- **C9.** For every input sequence of size at least 3, the instrumented
embedding never reaches an out-of-bounds access: at every evaluation of the
pop-loop condition the stack holds at least two elements, so
`result[result.size() - 1]`, `result[result.size() - 2]`, every `pop_back`
inside the loop and the final `pop_back` all operate on a sufficiently large
stack (`GrahamScanOpt` returns `none` exactly at such an access, and it
always returns `some`). -/
theorem grahamScan_stack_accesses_in_bounds (input : List Point)
    (h3 : 3 ≤ input.length) : (GrahamScanOpt input).isSome = true :=
  grahamScanOpt_isSome input

/-- Witness for C9. -/
theorem grahamScan_stack_accesses_in_bounds_witness :
    3 ≤ ([((0:ℚ),(0:ℚ)), (2,0), (1,2)] : List Point).length ∧
    (GrahamScanOpt [((0:ℚ),(0:ℚ)), (2,0), (1,2)]).isSome = true :=
  ⟨by norm_num, grahamScan_stack_accesses_in_bounds _ (by norm_num)⟩

/-- **C8.** `GrahamScan` is a total, terminating function on every input of
size at least 3 and raises no errors (the instrumented embedding always
returns `some`); degenerate inputs are not rejected: if all input points are
equal then every output point equals that point, and in particular for the
input of four copies of `(2,2)` every output point is `(2,2)`. -/
theorem grahamScan_total_on_degenerate_inputs :
    (∀ input : List Point, 3 ≤ input.length → (GrahamScanOpt input).isSome = true) ∧
    (∀ (input : List Point) (p : Point), 3 ≤ input.length →
      (∀ q ∈ input, q = p) → ∀ q ∈ GrahamScan input, q = p) ∧
    (∀ q ∈ GrahamScan [((2:ℚ),(2:ℚ)), (2,2), (2,2), (2,2)], q = ((2:ℚ),(2:ℚ))) := by
  refine ⟨fun input _ => grahamScanOpt_isSome input, ?_, ?_⟩
  · intro input p h3 hall q hq
    obtain ⟨a, p0, tO, F, pre, post, srest, hopt, -, -, -, -, hms, -, -⟩ :=
      grahamScanOpt_run h3
    have hms' : ((GrahamScan input : List Point) : Multiset Point)
        ≤ (input : Multiset Point) := by
      rw [grahamScan_eq_of_opt hopt]
      exact hms
    have hq' : q ∈ input :=
      Multiset.mem_coe.mp (Multiset.mem_of_le hms' (Multiset.mem_coe.mpr hq))
    exact hall q hq'
  · norm_num [GrahamScan, GrahamScanOpt, anchorSplit, minElementSplit, CompareYCoordinates,
      sortBy, insertByAngle, CompareByAngle, CrossProduct, NormSquared, sweepFold, sweepPop,
      Prod.ext_iff]

/-- Witness for C8: scenario D, four copies of `(2,2)`. -/
theorem grahamScan_total_on_degenerate_inputs_witness :
    (GrahamScanOpt [((2:ℚ),(2:ℚ)), (2,2), (2,2), (2,2)]).isSome = true ∧
    ∀ q ∈ GrahamScan [((2:ℚ),(2:ℚ)), (2,2), (2,2), (2,2)], q = ((2:ℚ),(2:ℚ)) :=
  ⟨grahamScan_total_on_degenerate_inputs.1 _ (by norm_num),
    grahamScan_total_on_degenerate_inputs.2.1 _ ((2:ℚ),(2:ℚ)) (by norm_num)
      (fun q hq => by simpa using hq)⟩

/-- **C7.** During the hull sweep the stack top is popped exactly while the
cross product of the last accepted hull edge with the vector from the stack
top to the candidate `p` is strictly negative; a cross product of zero (or
more) never triggers a pop, so collinear points are retained.  The second
conjunct checks scenario B of the spec: the collinear midpoint `(1,0)` is
retained in the output. -/
theorem grahamScan_pop_rule :
    (∀ (p x y : Point) (s : List Point),
      (0 ≤ CrossProduct (x - y) (p - x) →
        sweepPop p (x :: y :: s) = some (x :: y :: s)) ∧
      (CrossProduct (x - y) (p - x) < 0 →
        sweepPop p (x :: y :: s) = sweepPop p (y :: s))) ∧
    GrahamScan [((0:ℚ),(0:ℚ)), (2,0), (1,0), (1,2)]
      = [((0:ℚ),(0:ℚ)), (1,0), (2,0), (1,2)] := by
  constructor
  · intro p x y s
    constructor
    · intro h
      rw [show sweepPop p (x :: y :: s)
          = if CrossProduct (x - y) (p - x) < 0 then sweepPop p (y :: s)
            else some (x :: y :: s) from rfl, if_neg (not_lt.mpr h)]
    · intro h
      rw [show sweepPop p (x :: y :: s)
          = if CrossProduct (x - y) (p - x) < 0 then sweepPop p (y :: s)
            else some (x :: y :: s) from rfl, if_pos h]
  · norm_num [GrahamScan, GrahamScanOpt, anchorSplit, minElementSplit, CompareYCoordinates,
      sortBy, insertByAngle, CompareByAngle, CrossProduct, NormSquared, sweepFold, sweepPop,
      Prod.ext_iff]

/-- Witness for C7: a no-pop step (zero cross product, collinear retained)
and a popping step (negative cross product). -/
theorem grahamScan_pop_rule_witness :
    sweepPop ((2:ℚ),(0:ℚ)) [((1:ℚ),(0:ℚ)), ((0:ℚ),(0:ℚ))]
      = some [((1:ℚ),(0:ℚ)), ((0:ℚ),(0:ℚ))] ∧
    sweepPop ((2:ℚ),(0:ℚ)) [((1:ℚ),(1:ℚ)), ((0:ℚ),(0:ℚ)), ((5:ℚ),(5:ℚ))]
      = sweepPop ((2:ℚ),(0:ℚ)) [((0:ℚ),(0:ℚ)), ((5:ℚ),(5:ℚ))] :=
  ⟨(grahamScan_pop_rule.1 _ _ _ _).1 (by norm_num [CrossProduct]),
    (grahamScan_pop_rule.1 _ _ _ _).2 (by norm_num [CrossProduct])⟩

/-- **C6.** In the sorted working sequence built by the angular sorter (for
input of size at least 3), the point at position `i` precedes the point at
position `j` whenever the comparison decided by the sign of the 2D cross
product of the two vectors from the anchor says it makes a strictly smaller
angle with the positive x-axis (positive cross product), or whenever the two
are collinear with the anchor (cross product exactly zero) and `i`'s point is
strictly closer in squared distance. -/
theorem grahamScan_sorted_working_order (input : List Point) (h3 : 3 ≤ input.length) :
    ∀ i j : Nat, i < (sortedWorking input).length → j < (sortedWorking input).length →
      (0 < CrossProduct ((sortedWorking input).getD i 0 - theAnchor input)
          ((sortedWorking input).getD j 0 - theAnchor input) ∨
        (CrossProduct ((sortedWorking input).getD i 0 - theAnchor input)
            ((sortedWorking input).getD j 0 - theAnchor input) = 0 ∧
          NormSquared ((sortedWorking input).getD i 0 - theAnchor input) <
            NormSquared ((sortedWorking input).getD j 0 - theAnchor input))) →
      i < j := by
  have hne : input ≠ [] := by
    intro h
    rw [h] at h3
    simp at h3
  obtain ⟨r, hsplit⟩ : ∃ r, anchorSplit input = some r := by
    cases hh : anchorSplit input with
    | none => exact absurd ((minElementSplit_eq_none_iff _ _).mp hh) hne
    | some r => exact ⟨r, rfl⟩
  obtain ⟨pre, a, post⟩ := r
  have hta : theAnchor input = a := by
    unfold theAnchor
    rw [hsplit]
  have hsw : sortedWorking input = sortBy (CompareByAngle a) (pre ++ post) := by
    unfold sortedWorking
    rw [hsplit]
  have happ : input = pre ++ a :: post := minElementSplit_append _ _ _ _ _ hsplit
  have hmin : ∀ e ∈ input, CompareYCoordinates e a = false :=
    minElementSplit_min _ _ _ _ hsplit
  have hup : ∀ y ∈ pre ++ post, UpperHalf a y := by
    intro y hy
    apply upperHalf_of_compareY_false
    apply hmin
    rw [happ]
    rcases List.mem_append.mp hy with h | h
    · exact List.mem_append_left _ h
    · exact List.mem_append_right _ (List.mem_cons_of_mem _ h)
  have hpw0 : List.Pairwise (fun x y => CompareByAngle a y x = false)
      (sortedWorking input) := by
    rw [hsw]
    exact sortBy_pairwise (compareByAngle_asymmB a) (compareByAngle_transB (o := a)) hup
  intro i j hi hj H
  rw [hta] at H
  by_contra hcon
  push_neg at hcon
  rcases Nat.lt_or_ge j i with hlt | hge
  · have hp : CompareByAngle a ((sortedWorking input).getD i 0)
        ((sortedWorking input).getD j 0) = false :=
      pairwise_getD hpw0 hlt hi
    have hn := compareByAngle_false_iff.mp hp
    exact hn H
  · have heq : i = j := by omega
    subst heq
    exact angLt_irrefl ((sortedWorking input).getD i 0 - a) H

/-- Witness for C6: in scenario B the nearer collinear point `(1,0)` precedes
the farther `(2,0)` in the sorted working sequence. -/
theorem grahamScan_sorted_working_order_witness : (0 : Nat) < 1 := by
  have hval : sortedWorking [((0:ℚ),(0:ℚ)), (2,0), (1,0), (1,2)]
      = [((1:ℚ),(0:ℚ)), (2,0), (1,2)] := by
    norm_num [sortedWorking, anchorSplit, minElementSplit, CompareYCoordinates, sortBy,
      insertByAngle, CompareByAngle, CrossProduct, NormSquared, Prod.ext_iff]
  have hanch : theAnchor [((0:ℚ),(0:ℚ)), (2,0), (1,0), (1,2)] = ((0:ℚ),(0:ℚ)) := by
    norm_num [theAnchor, anchorSplit, minElementSplit, CompareYCoordinates, Prod.ext_iff]
  refine grahamScan_sorted_working_order [((0:ℚ),(0:ℚ)), (2,0), (1,0), (1,2)]
    (by norm_num) 0 1 (by rw [hval]; norm_num) (by rw [hval]; norm_num) ?_
  rw [hval, hanch]
  right
  constructor
  · norm_num [CrossProduct]
  · norm_num [NormSquared]

/-- **C10.** `GrahamScan` never mutates the caller's input sequence: in the
buffer-level embedding `GrahamScanImp`, in which every operation of the
source updates exactly the buffer it writes, the input range holds the same
points in the same order after the call, and the value delivered to the
output sink is the `GrahamScan` result; all sorting and stack manipulation
happens on the locally allocated `points` and `result` buffers. -/
theorem grahamScan_input_unmodified (input : List Point) :
    (GrahamScanImp input).inputBuf = input ∧
    (GrahamScanImp input).outBuf = GrahamScan input := by
  by_cases h3 : input.length < 3
  · have h1 : GrahamScanOpt input = some input := by
      unfold GrahamScanOpt
      rw [if_pos h3]
    constructor
    · unfold GrahamScanImp
      rw [if_pos h3]
    · unfold GrahamScanImp
      rw [if_pos h3, grahamScan_eq_of_opt h1]
  · obtain ⟨a, p0, tO, F, pre, post, srest, hopt, -, hchain, -, -, -, -, hsplit, hs0,
      hfold, hFlen⟩ := @grahamScanOpt_run input (by omega)
    have hdrop : F.reverse.dropLast = a :: p0 :: tO := by
      rw [hchain, List.dropLast_concat]
    constructor
    · unfold GrahamScanImp
      rw [if_neg h3, hsplit]
      simp only [hs0, List.cons_append, hfold]
    · unfold GrahamScanImp
      rw [if_neg h3, hsplit, grahamScan_eq_of_opt hopt]
      simp only [hs0, List.cons_append, hfold]
      exact hdrop


end GrahamScanVerify
